import Mathlib

/-!
# Verification of the skythen/bertlv BER-TLV codec

Shallow embedding of `bertlv.go` (the first of the repository's two
near-identical copies of the codec; the second copy agrees on every point
relevant here). Bytes are modelled as `Nat` (Go `byte` values are < 256;
theorems that need this bound state it explicitly), byte slices as
`List Nat`, and Go's `(value, error)` returns as `Except ParseError`.
-/

namespace BerTlv

/-- Error taxonomy of the decoder.  Go wraps errors in message strings;
the `invalidChild` constructor models the one wrap that carries structure
(the parent tag around a failed child parse), the other wraps only add
message text and keep the underlying category. -/
inductive ParseError where
  | emptyInput : ParseError
  | malformedTag : ParseError
  | malformedLength : ParseError
  | truncatedValue : ParseError
  | invalidChild : List Nat → ParseError → ParseError
deriving DecidableEq, Repr

/-- `BerTag` is the 1, 2 or 3 byte tag of a BER-TLV structure (Go: `type BerTag []byte`). -/
abbrev BerTag := List Nat

/-- `BerTLV` is a BER-TLV structure: `Tag`, `Value`, and the parsed `children`
of a constructed value (Go struct `BerTLV`).  A nil/empty Go slice is `[]`. -/
inductive BerTLV where
  | mk (Tag : BerTag) (Value : List Nat) (children : List BerTLV) : BerTLV

/-- Projection: the tag of a `BerTLV`. -/
def BerTLV.Tag : BerTLV → BerTag
  | .mk t _ _ => t

/-- Projection: the value of a `BerTLV`. -/
def BerTLV.Value : BerTLV → List Nat
  | .mk _ v _ => v

/-- Projection: the children of a `BerTLV`. -/
def BerTLV.children : BerTLV → List BerTLV
  | .mk _ _ c => c

/-- Go `BerTag.IsConstructed`: true iff the first byte exists and has bit
0x20 set; explicitly false on the empty tag. -/
def BerTag.IsConstructed (t : BerTag) : Bool :=
  match t with
  | [] => false
  | b0 :: _ => b0 &&& 0x20 != 0

/-- Go `parseTag`: 1 byte unless the low five bits of byte 0 are all set,
then 2 bytes unless bit 0x80 of byte 1 is set, then 3 bytes; errors when the
indicated continuation bytes are missing.  (Go reads `b[0]` unconditionally
and would panic on an empty slice; every caller in the package passes a
non-empty slice, and the `[]` case here is never reached from those callers.) -/
def parseTag (b : List Nat) : Except ParseError BerTag :=
  match b with
  | [] => .error .malformedTag
  | b0 :: rest =>
    if b0 &&& 0x1F != 0x1F then .ok [b0]
    else
      match rest with
      | [] => .error .malformedTag
      | b1 :: rest2 =>
        if b1 &&& 0x80 != 0x80 then .ok [b0, b1]
        else
          match rest2 with
          | [] => .error .malformedTag
          | b2 :: _ => .ok [b0, b1, b2]

/-- Go `parseLength`: returns (decoded length, number of length bytes
consumed).  Short form `0x00..0x7F`; `0x81` + one byte; `0x82` + two
big-endian bytes; anything else is an error. -/
def parseLength (b : List Nat) : Except ParseError (Nat × Nat) :=
  match b with
  | [] => .error .malformedLength
  | b0 :: rest =>
    if b0 ≤ 0x7F then .ok (b0, 1)
    else if b0 = 0x81 then
      match rest with
      | [] => .error .malformedLength
      | b1 :: _ => .ok (b1, 2)
    else if b0 = 0x82 then
      match rest with
      | b1 :: b2 :: _ => .ok (b1 * 256 + b2, 3)
      | _ => .error .malformedLength
    else .error .malformedLength

/-- Go `buildLen`: length 0 encodes as a single zero byte, 1..127 as one
byte, 128..255 as `0x81` + byte, larger as `0x82` + two big-endian bytes
(Go's `byte(...)` casts are the `% 256` reductions). -/
def buildLen (l : Nat) : List Nat :=
  if l = 0 then [0x00]
  else if l ≤ 127 then [l % 256]
  else if l ≤ 255 then [0x81, l % 256]
  else [0x82, (l >>> 8) % 256, l % 256]

/-- A parsed tag has 1 to 3 bytes. -/
theorem parseTag_length {b : List Nat} {t : BerTag} (h : parseTag b = .ok t) :
    1 ≤ t.length ∧ t.length ≤ 3 := by
  rcases b with _ | ⟨b0, _ | ⟨b1, _ | ⟨b2, rest⟩⟩⟩ <;>
    simp only [parseTag] at h <;>
    (try split_ifs at h) <;>
    first
      | exact (Except.noConfusion h)
      | (injection h with h
         subst h
         exact ⟨by simp, by simp⟩)

/-- Length parsing consumes 1 to 3 bytes, never more than the input holds. -/
theorem parseLength_consumed {b : List Nat} {l n : Nat}
    (h : parseLength b = .ok (l, n)) : 1 ≤ n ∧ n ≤ 3 ∧ n ≤ b.length := by
  rcases b with _ | ⟨b0, _ | ⟨b1, _ | ⟨b2, rest⟩⟩⟩ <;>
    simp only [parseLength] at h <;>
    (try split_ifs at h) <;>
    first
      | exact (Except.noConfusion h)
      | (injection h with h
         rw [Prod.mk.injEq] at h
         obtain ⟨rfl, rfl⟩ := h
         refine ⟨by omega, by omega, by simp⟩)

mutual

/-- Go `parseFirstBerTLV`: parse the tag, then the length, check that the
declared value fits in the buffer (Go compares `tLen + lLen + l - 1` with
`len b - 1` over machine integers, which is the comparison below), slice the
value out, and for a constructed tag with non-empty value parse the children,
wrapping a child failure with the parent tag. Returns the node and the
number of bytes consumed. -/
def parseFirstBerTLV (b : List Nat) : Except ParseError (BerTLV × Nat) :=
  match hT : parseTag b with
  | .error e => .error e
  | .ok tag =>
    match hL : parseLength (b.drop tag.length) with
    | .error e => .error e
    | .ok (l, lLen) =>
      if b.length < tag.length + lLen + l then .error .truncatedValue
      else
        let value := (b.drop (tag.length + lLen)).take l
        if value.length = 0 then .ok (.mk tag [] [], tag.length + lLen)
        else if BerTag.IsConstructed tag then
          match parseChildren value with
          | .error e => .error (.invalidChild tag e)
          | .ok cs => .ok (.mk tag value cs, tag.length + lLen + l)
        else .ok (.mk tag value [], tag.length + lLen + l)
  termination_by (b.length, 0)
  decreasing_by
    have ht := parseTag_length hT
    have hl := parseLength_consumed hL
    simp only [List.length_drop] at hl
    refine Prod.Lex.left _ _ ?_
    simp only [List.length_take, List.length_drop]
    omega

/-- The accumulation loop shared by Go's `Parse` and the child loops of
`parseFirstBerTLV` and `NewBerTLV`: repeatedly parse the first TLV of the
remaining bytes and advance past it until the buffer is exhausted.  (The
`n = 0` guard only exhibits termination: a successfully parsed TLV always
consumes at least two bytes, see `parseFirst_sound`, so the branch is
unreachable; the Go loop would not terminate there.) -/
def parseChildren (v : List Nat) : Except ParseError (List BerTLV) :=
  match v with
  | [] => .ok []
  | v0 :: vrest =>
    match parseFirstBerTLV (v0 :: vrest) with
    | .error e => .error e
    | .ok (tlv, n) =>
      if h : n = 0 then .error .truncatedValue
      else
        match parseChildren ((v0 :: vrest).drop n) with
        | .error e => .error e
        | .ok rest => .ok (tlv :: rest)
  termination_by (v.length, 1)
  decreasing_by
    · exact Prod.Lex.right _ (Nat.lt_succ_self 0)
    · refine Prod.Lex.left _ _ ?_
      simp only [List.length_drop, List.length_cons]
      omega

end

/-- Go `Parse`: error on empty input, otherwise run the accumulation loop
over the whole buffer. -/
def Parse (b : List Nat) : Except ParseError (List BerTLV) :=
  if b.length = 0 then .error .emptyInput
  else parseChildren b

/-- Go `BerTLV.Bytes`: truncate the value to 65535 bytes, build the length
bytes, substitute `[0x00]` for an empty tag and truncate a tag longer than 3
bytes, then emit tag ++ length ++ value. -/
def BerTLV.Bytes (ber : BerTLV) : List Nat :=
  let value := if 65535 < ber.Value.length then ber.Value.take 65535 else ber.Value
  let length := buildLen value.length
  let tag :=
    if 0 < ber.Tag.length ∧ ber.Tag.length ≤ 3 then ber.Tag
    else if ber.Tag.length = 0 then [0x00]
    else ber.Tag.take 3
  tag ++ length ++ value

/-- Go `BerTLVs.Bytes`: the for-append loop emitting each node's bytes in
order. -/
def BerTLVs.Bytes : List BerTLV → List Nat
  | [] => []
  | t :: ts => t.Bytes ++ BerTLVs.Bytes ts

/-- Go `BerTLV.BytesLength`: tag length + length-byte count + value length,
with the value capped at 65535 (note: the raw tag length is used, without
the encoder's empty-tag substitution or 3-byte truncation). -/
def BerTLV.BytesLength (ber : BerTLV) : Nat :=
  let lVal := if 65535 < ber.Value.length then 65535 else ber.Value.length
  ber.Tag.length + (buildLen lVal).length + lVal

/-- Go `NewBerTLV`: a non-constructed tag gives a node with no children and
no validation; a constructed tag has its value parsed into children, a
failure being wrapped with the tag. -/
def NewBerTLV (tag : BerTag) (value : List Nat) : Except ParseError BerTLV :=
  if ! BerTag.IsConstructed tag then .ok (.mk tag value [])
  else
    match parseChildren value with
    | .error e => .error (.invalidChild tag e)
    | .ok cs => .ok (.mk tag value cs)

/-- Go `Builder`: an append-only byte accumulator. -/
structure Builder where
  bytes : List Nat

/-- Go `Builder.AddBytes`: append the tag; an empty value appends a single
zero length byte; otherwise the value is truncated to 65535 bytes and
appended with its length bytes prepended (Go `prependLengthBytes`). -/
def Builder.AddBytes (bu : Builder) (tag : BerTag) (v : List Nat) : Builder :=
  if v.length = 0 then ⟨bu.bytes ++ tag ++ [0x00]⟩
  else
    let v' := if 65535 < v.length then v.take 65535 else v
    ⟨bu.bytes ++ tag ++ (buildLen v'.length ++ v')⟩

/-- Go `Builder.BuildBerTLVs`: `Parse` on the accumulated bytes. -/
def Builder.BuildBerTLVs (bu : Builder) : Except ParseError (List BerTLV) :=
  Parse bu.bytes

/-- Unfolding lemma for `parseFirstBerTLV`, restated without the dependent
matches that carry the termination argument. -/
theorem parseFirstBerTLV_eq (b : List Nat) :
    parseFirstBerTLV b =
      match parseTag b with
      | .error e => .error e
      | .ok tag =>
        match parseLength (b.drop tag.length) with
        | .error e => .error e
        | .ok (l, lLen) =>
          if b.length < tag.length + lLen + l then .error .truncatedValue
          else
            let value := (b.drop (tag.length + lLen)).take l
            if value.length = 0 then .ok (.mk tag [] [], tag.length + lLen)
            else if BerTag.IsConstructed tag then
              match parseChildren value with
              | .error e => .error (.invalidChild tag e)
              | .ok cs => .ok (.mk tag value cs, tag.length + lLen + l)
            else .ok (.mk tag value [], tag.length + lLen + l) := by
  rw [parseFirstBerTLV]
  rcases hT : parseTag b with e | tag
  · rfl
  · simp only []
    rcases hL : parseLength (b.drop tag.length) with e | ⟨l, lLen⟩
    · rfl
    · rfl

/-- A well-formed encoded tag: 1 to 3 bytes whose continuation bits are
consistent, exactly the shapes `parseTag` can return. -/
def validTagB (t : List Nat) : Bool :=
  match t with
  | [t0] => t0 &&& 0x1F != 0x1F
  | [t0, t1] => (t0 &&& 0x1F == 0x1F) && (t1 &&& 0x80 != 0x80)
  | [t0, t1, _] => (t0 &&& 0x1F == 0x1F) && (t1 &&& 0x80 == 0x80)
  | _ => false

/-- A valid tag has 1 to 3 bytes. -/
theorem validTagB_length {t : List Nat} (h : validTagB t = true) :
    1 ≤ t.length ∧ t.length ≤ 3 := by
  rcases t with _ | ⟨t0, _ | ⟨t1, _ | ⟨t2, _ | ⟨t3, rest⟩⟩⟩⟩ <;> simp_all [validTagB]

/-- Soundness of `parseTag`: the returned tag is a valid prefix of the input. -/
theorem parseTag_sound {b : List Nat} {t : BerTag} (h : parseTag b = .ok t) :
    validTagB t = true ∧ b = t ++ b.drop t.length := by
  rcases b with _ | ⟨b0, _ | ⟨b1, _ | ⟨b2, rest⟩⟩⟩ <;>
    simp only [parseTag] at h <;>
    (try split_ifs at h) <;>
    first
      | exact (Except.noConfusion h)
      | (injection h with h
         subst h
         simp_all [validTagB])

/-- Completeness of `parseTag`: a valid tag re-parses from any continuation. -/
theorem parseTag_complete {t : BerTag} (h : validTagB t = true) (rest : List Nat) :
    parseTag (t ++ rest) = .ok t := by
  rcases t with _ | ⟨t0, _ | ⟨t1, _ | ⟨t2, _ | ⟨t3, more⟩⟩⟩⟩ <;>
    simp_all [validTagB, parseTag]

/-- Over byte-valued input the decoded length never exceeds 65535. -/
theorem parseLength_le {b : List Nat} {l n : Nat} (hb : ∀ x ∈ b, x < 256)
    (h : parseLength b = .ok (l, n)) : l ≤ 65535 := by
  rcases b with _ | ⟨b0, _ | ⟨b1, _ | ⟨b2, rest⟩⟩⟩ <;>
    simp only [parseLength] at h <;>
    (try split_ifs at h) <;>
    first
      | exact (Except.noConfusion h)
      | (injection h with h
         rw [Prod.mk.injEq] at h
         obtain ⟨rfl, rfl⟩ := h
         first
           | omega
           | (have h1 := hb b1 (by simp)
              first
                | omega
                | (have h2 := hb b2 (by simp)
                   omega)))

/-- `buildLen` is a right inverse of `parseLength` for lengths up to 65535,
preserving any following bytes. -/
theorem parseLength_buildLen {n : Nat} (h : n ≤ 65535) (rest : List Nat) :
    parseLength (buildLen n ++ rest) = .ok (n, (buildLen n).length) := by
  unfold buildLen
  split_ifs with h0 h127 h255
  · subst h0
    simp [parseLength]
  · have hn : n % 256 = n := Nat.mod_eq_of_lt (by omega)
    rw [hn]
    simp [parseLength, show n ≤ 127 by omega]
  · have hn : n % 256 = n := Nat.mod_eq_of_lt (by omega)
    rw [hn]
    simp [parseLength, show ¬ n ≤ 127 by omega]
  · have h8 : n >>> 8 = n / 256 := Nat.shiftRight_eq_div_pow n 8
    simp [parseLength, h8]
    omega

/-- The invariant every node produced by the decoder satisfies: a valid 1-3
byte tag, a value of at most 65535 bytes, and children that are exactly the
decode of the value when the tag is constructed and the value non-empty, and
empty otherwise. -/
def WFtlv (T : BerTLV) : Prop :=
  validTagB T.Tag = true ∧ T.Value.length ≤ 65535 ∧
    (if BerTag.IsConstructed T.Tag = true ∧ T.Value.length ≠ 0
     then parseChildren T.Value = .ok T.children
     else T.children = [])

/-- Soundness of `parseFirstBerTLV`: a successfully parsed node satisfies the
decoder invariant and consumes between 2 and `b.length` bytes. -/
theorem parseFirst_sound {b : List Nat} {T : BerTLV} {n : Nat}
    (hb : ∀ x ∈ b, x < 256) (h : parseFirstBerTLV b = .ok (T, n)) :
    WFtlv T ∧ 2 ≤ n ∧ n ≤ b.length := by
  rw [parseFirstBerTLV_eq] at h
  split at h
  · exact (Except.noConfusion h)
  rename_i tag hT
  split at h
  · exact (Except.noConfusion h)
  rename_i p l lLen hL
  obtain ⟨htagv, hsplit⟩ := parseTag_sound hT
  obtain ⟨ht1, ht3⟩ := validTagB_length htagv
  have htlen : tag.length ≤ b.length := by
    conv_rhs => rw [hsplit]
    simp
  obtain ⟨hl1, hl3, hlle⟩ := parseLength_consumed hL
  simp only [List.length_drop] at hlle
  have hble : ∀ x ∈ b.drop tag.length, x < 256 := fun x hx =>
    hb x (List.mem_of_mem_drop hx)
  have hl65535 : l ≤ 65535 := parseLength_le hble hL
  simp only [] at h
  split_ifs at h with hbound hempty hcon
  · injection h with h
    rw [Prod.mk.injEq] at h
    obtain ⟨rfl, rfl⟩ := h
    refine ⟨⟨htagv, by simp [BerTLV.Value],
      by simp [BerTLV.Tag, BerTLV.Value, BerTLV.children]⟩, by omega, by omega⟩
  · split at h
    · exact (Except.noConfusion h)
    rename_i cs hC
    injection h with h
    rw [Prod.mk.injEq] at h
    obtain ⟨rfl, rfl⟩ := h
    refine ⟨⟨htagv, ?_, ?_⟩, by omega, by omega⟩
    · simp only [BerTLV.Value, List.length_take, List.length_drop]
      omega
    · rw [if_pos ⟨hcon, hempty⟩]
      exact hC
  · injection h with h
    rw [Prod.mk.injEq] at h
    obtain ⟨rfl, rfl⟩ := h
    refine ⟨⟨htagv, ?_, ?_⟩, by omega, by omega⟩
    · simp only [BerTLV.Value, List.length_take, List.length_drop]
      omega
    · rw [if_neg]
      · rfl
      · simp only [BerTLV.Tag, BerTLV.Value]
        intro hand
        exact hcon hand.1

/-- Soundness of the accumulation loop: over byte-valued input every node of
a successful parse satisfies the decoder invariant. -/
theorem parseChildren_sound :
    ∀ k (v : List Nat), v.length ≤ k → (∀ x ∈ v, x < 256) →
      ∀ {ts : List BerTLV}, parseChildren v = .ok ts → ∀ T ∈ ts, WFtlv T := by
  intro k
  induction k with
  | zero =>
    intro v hk _ ts h T hT
    have hv : v = [] := List.length_eq_zero.mp (by omega)
    subst hv
    rw [parseChildren] at h
    injection h with h
    subst h
    exact absurd hT (by simp)
  | succ k ih =>
    intro v hk hb ts h T hT
    rcases v with _ | ⟨v0, vrest⟩
    · rw [parseChildren] at h
      injection h with h
      subst h
      exact absurd hT (by simp)
    rw [parseChildren] at h
    split at h
    · exact (Except.noConfusion h)
    rename_i p tlv n hP
    obtain ⟨hwf, hn2, hnle⟩ := parseFirst_sound hb hP
    rw [dif_neg (by omega)] at h
    split at h
    · exact (Except.noConfusion h)
    rename_i rest hC
    injection h with h
    subst h
    rcases List.mem_cons.mp hT with rfl | hmem
    · exact hwf
    · refine ih ((v0 :: vrest).drop n) ?_
        (fun x hx => hb x (List.mem_of_mem_drop hx)) hC T hmem
      have hcl : (v0 :: vrest).length = vrest.length + 1 := by simp
      simp only [List.length_drop]
      omega

/-- For a node satisfying the decoder invariant the encoder applies no
truncation: the output is literally tag ++ length bytes ++ value. -/
theorem Bytes_of_wf {t : BerTag} {v : List Nat} (cs : List BerTLV)
    (ht1 : 1 ≤ t.length) (ht3 : t.length ≤ 3) (hv : v.length ≤ 65535) :
    BerTLV.Bytes (.mk t v cs) = t ++ (buildLen v.length ++ v) := by
  unfold BerTLV.Bytes
  simp only [BerTLV.Tag, BerTLV.Value]
  rw [if_neg (show ¬ 65535 < v.length by omega)]
  rw [if_pos (show 0 < t.length ∧ t.length ≤ 3 by omega)]
  simp [List.append_assoc]

/-- The encoder never returns an empty byte string (the tag part is always
at least one byte). -/
theorem Bytes_ne_nil (T : BerTLV) : BerTLV.Bytes T ≠ [] := by
  obtain ⟨t, v, cs⟩ := T
  unfold BerTLV.Bytes
  simp only [BerTLV.Tag, BerTLV.Value]
  split_ifs <;>
    simp_all [List.append_eq_nil, List.length_pos, List.take_eq_nil_iff, List.length_eq_zero]

/-- Completeness of `parseFirstBerTLV`: a node satisfying the decoder
invariant re-parses from its own encoding followed by anything, consuming
exactly its encoding. -/
theorem parseFirst_complete {T : BerTLV} (h : WFtlv T) (rest : List Nat) :
    parseFirstBerTLV (BerTLV.Bytes T ++ rest) = .ok (T, (BerTLV.Bytes T).length) := by
  obtain ⟨t, v, cs⟩ := T
  obtain ⟨htag, hval, hch⟩ := h
  simp only [BerTLV.Tag, BerTLV.Value, BerTLV.children] at htag hval hch
  obtain ⟨ht1, ht3⟩ := validTagB_length htag
  have hB := Bytes_of_wf cs ht1 ht3 hval
  rw [hB, parseFirstBerTLV_eq, List.append_assoc]
  split
  · rename_i e hT
    rw [parseTag_complete htag] at hT
    exact (Except.noConfusion hT)
  rename_i tag hT
  rw [parseTag_complete htag] at hT
  injection hT with hT
  subst hT
  rw [List.drop_left, List.append_assoc]
  split
  · rename_i e hL
    rw [parseLength_buildLen hval] at hL
    exact (Except.noConfusion hL)
  rename_i p l lLen hL
  rw [parseLength_buildLen hval] at hL
  injection hL with hL
  rw [Prod.mk.injEq] at hL
  obtain ⟨rfl, rfl⟩ := hL
  rw [if_neg (by simp [List.length_append]; omega)]
  have hvalue : ((t ++ (buildLen v.length ++ (v ++ rest))).drop
      (t.length + (buildLen v.length).length)).take v.length = v := by
    rw [show t ++ (buildLen v.length ++ (v ++ rest))
        = (t ++ buildLen v.length) ++ (v ++ rest) by simp [List.append_assoc]]
    rw [show t.length + (buildLen v.length).length = (t ++ buildLen v.length).length
        by simp]
    rw [List.drop_left, List.take_left]
  simp only [hvalue]
  rcases hv0 : v with _ | ⟨x, xs⟩
  · rw [if_pos (by simp)]
    subst hv0
    have hcs : cs = [] := by
      rw [if_neg (by simp)] at hch
      exact hch
    rw [hcs]
    simp [List.length_append]
  · rw [if_neg (by simp)]
    rw [← hv0]
    by_cases hc : BerTag.IsConstructed t = true
    · rw [if_pos hc]
      rw [if_pos ⟨hc, by rw [hv0]; simp⟩] at hch
      rw [hch]
      simp only [Except.ok.injEq, Prod.mk.injEq]
      refine ⟨trivial, ?_⟩
      simp [List.length_append]
      omega
    · rw [if_neg hc]
      rw [if_neg (by intro hand; exact hc hand.1)] at hch
      rw [hch]
      simp only [Except.ok.injEq, Prod.mk.injEq]
      refine ⟨trivial, ?_⟩
      simp [List.length_append]
      omega

/-- Completeness of the accumulation loop: a list of invariant-satisfying
nodes re-parses from its concatenated encoding. -/
theorem parseChildren_complete :
    ∀ (ts : List BerTLV), (∀ T ∈ ts, WFtlv T) →
      parseChildren (BerTLVs.Bytes ts) = .ok ts := by
  intro ts
  induction ts with
  | nil =>
    intro _
    rw [BerTLVs.Bytes, parseChildren]
  | cons T ts ih =>
    intro hwf
    have hfirst := parseFirst_complete (hwf T (by simp)) (BerTLVs.Bytes ts)
    have hne := Bytes_ne_nil T
    rw [BerTLVs.Bytes]
    rcases hBT : BerTLV.Bytes T with _ | ⟨b0, brest⟩
    · exact absurd hBT hne
    rw [hBT] at hfirst
    rw [List.cons_append] at hfirst ⊢
    rw [parseChildren]
    split
    · rename_i e hP
      rw [hfirst] at hP
      exact (Except.noConfusion hP)
    rename_i p tlv n hP
    rw [hfirst] at hP
    injection hP with hP
    rw [Prod.mk.injEq] at hP
    obtain ⟨rfl, rfl⟩ := hP
    rw [dif_neg (by simp)]
    have hdrop : (b0 :: (brest ++ BerTLVs.Bytes ts)).drop (b0 :: brest).length
        = BerTLVs.Bytes ts := by
      rw [← List.cons_append, List.drop_left]
    rw [hdrop]
    split
    · rename_i e hC
      rw [ih (fun U hU => hwf U (by simp [hU]))] at hC
      exact (Except.noConfusion hC)
    rename_i rest2 hC
    rw [ih (fun U hU => hwf U (by simp [hU]))] at hC
    injection hC with hC
    subst hC
    rfl

/-- A successful run of the accumulation loop on non-empty input returns at
least one node. -/
theorem parseChildren_cons_ne_nil {v0 : Nat} {vrest : List Nat} {ts : List BerTLV}
    (h : parseChildren (v0 :: vrest) = .ok ts) : ts ≠ [] := by
  rw [parseChildren] at h
  split at h
  · exact (Except.noConfusion h)
  rename_i p tlv n hP
  split at h
  · exact (Except.noConfusion h)
  split at h
  · exact (Except.noConfusion h)
  rename_i rest hC
  injection h with h
  subst h
  simp

/-- The node decoded from `0A 01 FF` satisfies the decoder invariant. -/
theorem sample_wf : WFtlv (.mk [0x0A] [0xFF] []) := by
  unfold WFtlv
  refine ⟨by decide, by decide, ?_⟩
  rw [if_neg (by decide)]
  rfl

/-- Decoding `0A 01 FF` gives the single primitive node (tag 0x0A,
value 0xFF). -/
theorem Parse_0A01FF : Parse [0x0A, 0x01, 0xFF] = .ok [.mk [0x0A] [0xFF] []] := by
  have h := parseChildren_complete [.mk [0x0A] [0xFF] []]
    (by
      intro T hT
      simp only [List.mem_singleton] at hT
      subst hT
      exact sample_wf)
  have hbytes : BerTLVs.Bytes [.mk [0x0A] [0xFF] []] = [0x0A, 0x01, 0xFF] := by decide
  rw [hbytes] at h
  unfold Parse
  rw [if_neg (by decide)]
  exact h

/-- A lone `0x01` byte fails to parse: the tag consumes it and no length
byte remains. -/
theorem parseFirst_lone_byte : parseFirstBerTLV [0x01] = .error .malformedLength := by
  simp +decide [parseFirstBerTLV_eq, parseTag, parseLength]

/-- The accumulation loop on the single byte `0x01` propagates the missing
length error. -/
theorem parseChildren_lone_byte : parseChildren [(0x01 : Nat)] = .error .malformedLength := by
  rw [parseChildren, parseFirst_lone_byte]

/-- The constructed TLV `71 01 01` fails: recursive decoding of the one-byte
value hits the missing child length, and the failure is wrapped with the
parent tag 0x71. -/
theorem parseFirst_710101 :
    parseFirstBerTLV [0x71, 0x01, 0x01] = .error (.invalidChild [0x71] .malformedLength) := by
  simp +decide [parseFirstBerTLV_eq, parseTag, parseLength, BerTag.IsConstructed]
  rw [show List.take 1 [(0x01 : Nat)] = [0x01] from rfl, parseChildren_lone_byte]

/-- Modelled from the spec §4.4: the encoder's output layout in the spec's
words — the tag (a single zero byte when empty, else its first three bytes),
then the encoded length of the value capped at 65535, then the first 65535
value bytes verbatim. -/
def bytesSpec (ber : BerTLV) : List Nat :=
  (if ber.Tag = [] then [0x00] else ber.Tag.take 3)
    ++ buildLen (min ber.Value.length 65535)
    ++ ber.Value.take 65535

/-- Claim C1: for every tree produced by a successful `Parse` of byte-valued
input, re-encoding with `BerTLVs.Bytes` and decoding again succeeds and
returns the structurally identical tree. -/
theorem claim1_roundtrip {b : List Nat} {ts : List BerTLV}
    (hb : ∀ x ∈ b, x < 256) (h : Parse b = .ok ts) :
    Parse (BerTLVs.Bytes ts) = .ok ts := by
  unfold Parse at h
  split_ifs at h with hlen
  have hwf := parseChildren_sound b.length b le_rfl hb h
  have hcomp := parseChildren_complete ts hwf
  have hts : ts ≠ [] := by
    rcases b with _ | ⟨b0, brest⟩
    · simp at hlen
    · exact parseChildren_cons_ne_nil h
  have hBne : BerTLVs.Bytes ts ≠ [] := by
    rcases ts with _ | ⟨T, ts2⟩
    · exact absurd rfl hts
    rw [BerTLVs.Bytes]
    intro hc
    exact Bytes_ne_nil T (List.append_eq_nil.mp hc).1
  unfold Parse
  rw [if_neg (fun hc => hBne (List.length_eq_zero.mp hc))]
  exact hcomp

/-- Claim C1 witness: the roundtrip at the concrete input `0A 01 FF`. -/
theorem claim1_witness :
    Parse [0x0A, 0x01, 0xFF] = .ok [.mk [0x0A] [0xFF] []] ∧
      Parse (BerTLVs.Bytes [.mk [0x0A] [0xFF] []]) = .ok [.mk [0x0A] [0xFF] []] :=
  ⟨Parse_0A01FF, claim1_roundtrip (by decide) Parse_0A01FF⟩

/-- Claim C2 counterexample: on the node with an empty tag (and empty value)
`BytesLength` reports 1 while `Bytes` emits the two bytes `00 00` — the
empty-tag substitution of the encoder is not reflected in `BytesLength`. -/
theorem claim2_counterexample :
    BerTLV.BytesLength (.mk [] [] []) ≠ (BerTLV.Bytes (.mk [] [] [])).length := by
  decide

/-- Claim C2 (amended): for nodes whose tag has 1 to 3 bytes — so that the
encoder's empty-tag substitution and 3-byte tag truncation do not fire —
`BytesLength` equals the length of the `Bytes` output; the value truncation
at 65535 is applied identically on both sides. -/
theorem claim2_bytesLength_correct {ber : BerTLV}
    (h1 : 1 ≤ ber.Tag.length) (h3 : ber.Tag.length ≤ 3) :
    BerTLV.BytesLength ber = (BerTLV.Bytes ber).length := by
  obtain ⟨t, v, cs⟩ := ber
  simp only [BerTLV.Tag] at h1 h3
  unfold BerTLV.BytesLength BerTLV.Bytes
  simp only [BerTLV.Tag, BerTLV.Value]
  rw [if_pos (show 0 < t.length ∧ t.length ≤ 3 by omega)]
  split_ifs with hv
  · rw [show (List.take 65535 v).length = 65535 by rw [List.length_take]; omega]
    simp [List.length_append, List.length_take]
    omega
  · simp [List.length_append, Nat.add_assoc]

/-- Claim C2 witness: the amended statement at a concrete 1-byte-tag node. -/
theorem claim2_witness :
    BerTLV.BytesLength (.mk [0x0A] [0x01, 0x02] []) =
      (BerTLV.Bytes (.mk [0x0A] [0x01, 0x02] [])).length :=
  claim2_bytesLength_correct (by decide) (by decide)

/-- Claim C3: `buildLen` maps 0 to `[0x00]`, 1..127 to the single literal
byte, 128..255 to `[0x81, n]`, and 256..65535 to `[0x82, high, low]`
big-endian. -/
theorem claim3_buildLen_exact :
    buildLen 0 = [0x00] ∧
    (∀ n, 1 ≤ n → n ≤ 127 → buildLen n = [n]) ∧
    (∀ n, 128 ≤ n → n ≤ 255 → buildLen n = [0x81, n]) ∧
    (∀ n, 256 ≤ n → n ≤ 65535 → buildLen n = [0x82, n / 256, n % 256]) := by
  refine ⟨by decide, ?_, ?_, ?_⟩
  · intro n hn1 hn2
    unfold buildLen
    rw [if_neg (by omega), if_pos (by omega)]
    rw [Nat.mod_eq_of_lt (by omega)]
  · intro n hn1 hn2
    unfold buildLen
    rw [if_neg (by omega), if_neg (by omega), if_pos (by omega)]
    rw [Nat.mod_eq_of_lt (by omega)]
  · intro n hn1 hn2
    unfold buildLen
    rw [if_neg (by omega), if_neg (by omega), if_neg (by omega)]
    have h8 : n >>> 8 = n / 256 := Nat.shiftRight_eq_div_pow n 8
    rw [h8, Nat.mod_eq_of_lt (by omega)]

/-- Claim C3 witness: the boundary values from the spec. -/
theorem claim3_witness :
    buildLen 127 = [0x7F] ∧ buildLen 128 = [0x81, 0x80] ∧
      buildLen 255 = [0x81, 0xFF] ∧ buildLen 256 = [0x82, 0x01, 0x00] ∧
      buildLen 65535 = [0x82, 0xFF, 0xFF] :=
  ⟨claim3_buildLen_exact.2.1 127 (by decide) (by decide),
   claim3_buildLen_exact.2.2.1 128 (by decide) (by decide),
   claim3_buildLen_exact.2.2.1 255 (by decide) (by decide),
   claim3_buildLen_exact.2.2.2 256 (by decide) (by decide),
   claim3_buildLen_exact.2.2.2 65535 (by decide) (by decide)⟩

/-- Claim C4: `parseLength` errors exactly on empty input, a truncated
`0x81`/`0x82` long form, the reserved `0x80`, or a marker above `0x82`; every
accepted input yields the decoded value of the matched form and consumes 1,
2 or 3 bytes. -/
theorem claim4_parseLength_characterization (b : List Nat) :
    (parseLength b = .error .malformedLength ↔
      b = [] ∨ ∃ b0 rest, b = b0 :: rest ∧
        ((b0 = 0x81 ∧ rest = []) ∨ (b0 = 0x82 ∧ rest.length < 2) ∨
          b0 = 0x80 ∨ 0x82 < b0)) ∧
    (∀ l n, parseLength b = .ok (l, n) →
      (n = 1 ∧ l ≤ 0x7F ∧ b.head? = some l) ∨
      (n = 2 ∧ b.head? = some 0x81 ∧ (b.drop 1).head? = some l) ∨
      (n = 3 ∧ b.head? = some 0x82 ∧
        ∃ b1 b2, (b.drop 1).head? = some b1 ∧ (b.drop 2).head? = some b2 ∧
          l = b1 * 256 + b2)) := by
  constructor
  · rcases b with _ | ⟨b0, _ | ⟨b1, _ | ⟨b2, rest⟩⟩⟩ <;>
      simp only [parseLength] <;>
      (try split_ifs) <;>
      simp_all <;>
      first
        | omega
        | exact ⟨_, _, ⟨rfl, rfl⟩, by first | (simp; omega) | simp | omega⟩
  · intro l n h
    rcases b with _ | ⟨b0, _ | ⟨b1, _ | ⟨b2, rest⟩⟩⟩ <;>
      simp only [parseLength] at h <;>
      (try split_ifs at h with h1 h2 h3) <;>
      first
        | exact (Except.noConfusion h)
        | (injection h with h
           rw [Prod.mk.injEq] at h
           obtain ⟨rfl, rfl⟩ := h
           simp_all)

/-- Claim C4 witness: the reserved indefinite-form marker `0x80` is
rejected. -/
theorem claim4_witness : parseLength [0x80] = .error .malformedLength :=
  (claim4_parseLength_characterization [0x80]).1.mpr
    (Or.inr ⟨0x80, [], rfl, Or.inr (Or.inr (Or.inl rfl))⟩)

/-- Claim C5: the encoder realises exactly the spec's layout — substituted
or truncated tag, then the length bytes of the capped value, then the first
65535 value bytes. -/
theorem claim5_encoder_layout (ber : BerTLV) : BerTLV.Bytes ber = bytesSpec ber := by
  obtain ⟨t, v, cs⟩ := ber
  unfold BerTLV.Bytes bytesSpec
  simp only [BerTLV.Tag, BerTLV.Value]
  congr 1
  · congr 1
    · split_ifs with h1 h2 h3 h4 <;>
        first
          | rfl
          | (exact absurd (List.length_eq_zero.mpr h2) (by omega))
          | (exact absurd h2 (List.length_eq_zero.mp (by omega)))
          | (exact (List.take_of_length_le (by omega)).symm)
          | simp_all [List.length_eq_zero]
    · congr 1
      split_ifs with h1
      · rw [List.length_take]
        omega
      · omega
  · split_ifs with h1
    · rfl
    · exact (List.take_of_length_le (by omega)).symm

/-- Claim C6: a first TLV with a constructed tag and declared length 0
decodes successfully to a node with that tag, empty value and no children. -/
theorem claim6_constructed_empty {b : List Nat} {t : BerTag} {lLen : Nat}
    (hT : parseTag b = .ok t) (hcon : BerTag.IsConstructed t = true)
    (hL : parseLength (b.drop t.length) = .ok (0, lLen)) :
    parseFirstBerTLV b = .ok (.mk t [] [], t.length + lLen) := by
  rw [parseFirstBerTLV_eq]
  split
  · rename_i e hT2
    rw [hT] at hT2
    exact (Except.noConfusion hT2)
  rename_i tag hT2
  rw [hT] at hT2
  injection hT2 with hT2
  subst hT2
  split
  · rename_i e hL2
    rw [hL] at hL2
    exact (Except.noConfusion hL2)
  rename_i p l lLen2 hL2
  rw [hL] at hL2
  injection hL2 with hL2
  rw [Prod.mk.injEq] at hL2
  obtain ⟨rfl, rfl⟩ := hL2
  have hsplit := (parseTag_sound hT).2
  have htlen : t.length ≤ b.length := by
    conv_rhs => rw [hsplit]
    simp
  obtain ⟨hl1, hl3, hlle⟩ := parseLength_consumed hL
  simp only [List.length_drop] at hlle
  rw [if_neg (by omega), if_pos (by simp)]

/-- Claim C6 witness: `71 00` decodes to the childless empty node with tag
0x71, consuming both bytes. -/
theorem claim6_witness :
    parseFirstBerTLV [0x71, 0x00] = .ok (.mk [0x71] [] [], 2) :=
  @claim6_constructed_empty [0x71, 0x00] [0x71] 1 rfl (by decide) rfl

/-- Claim C7: adding tag 0x0A with value FF to an empty builder and
finalizing equals decoding `0A 01 FF` directly, and in general finalizing is
`Parse` of the accumulated buffer. -/
theorem claim7_builder_equiv :
    (Builder.AddBytes ⟨[]⟩ [0x0A] [0xFF]).BuildBerTLVs = Parse [0x0A, 0x01, 0xFF] ∧
    (Builder.AddBytes ⟨[]⟩ [0x0A] [0xFF]).BuildBerTLVs = .ok [.mk [0x0A] [0xFF] []] ∧
    ∀ bu : Builder, bu.BuildBerTLVs = Parse bu.bytes :=
  ⟨rfl, Parse_0A01FF, fun _ => rfl⟩

/-- Claim C8: `Parse` on `71 01 01` fails with the child failure wrapped in
the parent tag 0x71 and returns no tree. -/
theorem claim8_invalid_child :
    Parse [0x71, 0x01, 0x01] = .error (.invalidChild [0x71] .malformedLength) := by
  unfold Parse
  rw [if_neg (by decide)]
  rw [parseChildren, parseFirst_710101]

/-- Claim C9: the encoder never reads the children field — nodes with equal
tag and value but arbitrary children encode identically. -/
theorem claim9_bytes_ignores_children (t : BerTag) (v : List Nat)
    (c1 c2 : List BerTLV) : BerTLV.Bytes (.mk t v c1) = BerTLV.Bytes (.mk t v c2) :=
  rfl

/-- Claim C10: `IsConstructed` is total on the empty tag (returns false),
and `NewBerTLV` with an empty tag succeeds for every value, yielding a
primitive node with no children. -/
theorem claim10_empty_tag_total :
    BerTag.IsConstructed [] = false ∧
      ∀ v : List Nat, NewBerTLV [] v = .ok (.mk [] v []) :=
  ⟨rfl, fun _ => rfl⟩

end BerTlv
